import Mathlib

/-! Verification of the `uniquehist` history deduplicator.

The development shallowly embeds `src/uniquehist/__init__.py`:

* the merge pipeline inside `do_the_magic` (reverse the history so it is
  newest first, prepend the reversed append-file lines, keep the first
  occurrence of each trailing-whitespace-trimmed value, reverse back);
* the driver behaviour of `do_the_magic` over an explicit filesystem state
  (existence check, append-file consumption with its `assert`, the backup
  size guard, the two rewrites);
* the destination states observable while `save_replace` publishes new
  content via `shutil.copy`;
* the non-install branch of `main`.
-/

namespace Uniquehist

/-- Python `str.rstrip()` applied to one line: drop trailing whitespace
characters.  This is the deduplication key extraction used in
`do_the_magic` (`val = s.rstrip()`). -/
def pyRstrip (s : String) : String :=
  ⟨(s.data.reverse.dropWhile Char.isWhitespace).reverse⟩

/-- The deduplication scan of `do_the_magic` (the `for s in history_lines`
loop with the `short` list and the `setcheck` dict): walk the newest-first
line list, and keep the trimmed value of a line exactly when that value has
not been seen earlier in the scan.  `seen` models the key set of
`setcheck`. -/
def dedupLoop (seen : List String) : List String → List String
  | [] => []
  | s :: rest =>
    if pyRstrip s ∈ seen then dedupLoop seen rest
    else pyRstrip s :: dedupLoop (pyRstrip s :: seen) rest

/-- The combined newest-first scan list of `do_the_magic`: the reversed
history lines, with the reversed append-file lines prepended when an append
file is consumed (`history_lines = additionlines + history_lines`). -/
def combinedNewestFirst (historyLines : List String)
    (appendLines : Option (List String)) : List String :=
  match appendLines with
  | some adds => adds.reverse ++ historyLines.reverse
  | none => historyLines.reverse

/-- The pure merge pipeline of `do_the_magic`: reverse the history to
newest-first order, prepend the reversed append lines when present, keep
the first occurrence of each trimmed value, and reverse the kept list back
to oldest-first order (`short.reverse()`). -/
def historyMerge (historyLines : List String)
    (appendLines : Option (List String)) : List String :=
  (dedupLoop [] (combinedNewestFirst historyLines appendLines)).reverse

theorem mem_dedupLoop {v : String} (seen l : List String) :
    v ∈ dedupLoop seen l ↔ v ∈ l.map pyRstrip ∧ v ∉ seen := by
  induction l generalizing seen with
  | nil => simp [dedupLoop]
  | cons s rest ih =>
    simp only [dedupLoop, List.map_cons, List.mem_cons]
    by_cases h : pyRstrip s ∈ seen
    · rw [if_pos h, ih]
      constructor
      · rintro ⟨hm, hns⟩
        exact ⟨Or.inr hm, hns⟩
      · rintro ⟨hor, hns⟩
        rcases hor with he | hm
        · exact absurd (he ▸ h) hns
        · exact ⟨hm, hns⟩
    · rw [if_neg h]
      rw [List.mem_cons, ih]
      constructor
      · rintro (he | ⟨hm, hns⟩)
        · exact ⟨Or.inl he, he ▸ h⟩
        · exact ⟨Or.inr hm, fun hv => hns (List.mem_cons_of_mem _ hv)⟩
      · rintro ⟨he | hm, hns⟩
        · exact Or.inl he
        · by_cases hv : v = pyRstrip s
          · exact Or.inl hv
          · refine Or.inr ⟨hm, ?_⟩
            intro hc
            rcases List.mem_cons.mp hc with hc | hc
            · exact hv hc
            · exact hns hc

theorem nodup_dedupLoop (seen l : List String) : (dedupLoop seen l).Nodup := by
  induction l generalizing seen with
  | nil => simp [dedupLoop]
  | cons s rest ih =>
    simp only [dedupLoop]
    by_cases h : pyRstrip s ∈ seen
    · rw [if_pos h]; exact ih seen
    · rw [if_neg h]
      refine List.nodup_cons.mpr ⟨?_, ih _⟩
      intro hmem
      exact ((mem_dedupLoop _ _).mp hmem).2 (List.mem_cons_self _ _)

/-- C1: for every input history sequence and optional append sequence, the
merge produces an output in which every distinct trimmed value of the input
lines appears exactly once (and nothing else appears). -/
theorem merge_unique_trimmed (h : List String) (a : Option (List String))
    (v : String) :
    (historyMerge h a).count v =
      if v ∈ (combinedNewestFirst h a).map pyRstrip then 1 else 0 := by
  unfold historyMerge
  rw [List.count_reverse]
  by_cases hv : v ∈ (combinedNewestFirst h a).map pyRstrip
  · rw [if_pos hv]
    exact List.count_eq_one_of_mem (nodup_dedupLoop _ _)
      ((mem_dedupLoop _ _).mpr ⟨hv, by simp⟩)
  · rw [if_neg hv]
    rw [List.count_eq_zero]
    intro hc
    exact hv ((mem_dedupLoop _ _).mp hc).1

/-- C6: merging history `["a", "b"]` with append buffer `["a", "c"]` yields
exactly `["b", "a", "c"]`: append entries count as newer than all history,
so `a` moves to its newer slot, `c` is appended, and `b` stays before `a`. -/
theorem merge_append_precedence :
    historyMerge ["a", "b"] (some ["a", "c"]) = ["b", "a", "c"] := by
  decide

theorem dedupLoop_of_nodup (l : List String) :
    ∀ seen : List String, (∀ s ∈ l, pyRstrip s = s) → l.Nodup →
    (∀ s ∈ l, s ∉ seen) → dedupLoop seen l = l := by
  induction l with
  | nil => intro seen _ _ _; rfl
  | cons s rest ih =>
    intro seen hid hnd hs
    have hvs : pyRstrip s = s := hid s (List.mem_cons_self _ _)
    have hnotin : pyRstrip s ∉ seen := by
      rw [hvs]; exact hs s (List.mem_cons_self _ _)
    show (if pyRstrip s ∈ seen then dedupLoop seen rest
      else pyRstrip s :: dedupLoop (pyRstrip s :: seen) rest) = s :: rest
    rw [if_neg hnotin, hvs]
    congr 1
    refine ih _ (fun t ht => hid t (List.mem_cons_of_mem _ ht))
      (List.Nodup.of_cons hnd) ?_
    intro t ht hc
    rcases List.mem_cons.mp hc with hc | hc
    · exact (List.nodup_cons.mp hnd).1 (hc ▸ ht)
    · exact hs t (List.mem_cons_of_mem _ ht) hc

/-- C7: the merge is idempotent: a history whose lines carry no trailing
whitespace and whose entries are pairwise distinct is returned unchanged by
a merge with no append buffer (in particular the empty history maps to the
empty output). -/
theorem merge_idempotent (h : List String)
    (hid : ∀ s ∈ h, pyRstrip s = s) (hnd : h.Nodup) :
    historyMerge h none = h := by
  unfold historyMerge combinedNewestFirst
  rw [dedupLoop_of_nodup h.reverse []
    (fun s hs => hid s (List.mem_reverse.mp hs))
    (List.nodup_reverse.mpr hnd)
    (fun s _ hc => (List.not_mem_nil s) hc)]
  exact List.reverse_reverse h

/-- Witness for C7 at the empty history. -/
theorem merge_idempotent_witness : historyMerge [] none = [] :=
  merge_idempotent [] (by intro s hs; cases hs) (by decide)

theorem dedupLoop_indexOf_lt {A B : String} (l : List String) :
    ∀ seen : List String, A ∈ dedupLoop seen l → B ∈ dedupLoop seen l →
    (List.indexOf A (dedupLoop seen l) < List.indexOf B (dedupLoop seen l) ↔
      List.indexOf A (l.map pyRstrip) < List.indexOf B (l.map pyRstrip)) := by
  induction l with
  | nil =>
    intro seen hA _
    simp [dedupLoop] at hA
  | cons s rest ih =>
    intro seen hA hB
    by_cases h : pyRstrip s ∈ seen
    · have hout : dedupLoop seen (s :: rest) = dedupLoop seen rest := by
        simp only [dedupLoop]; rw [if_pos h]
      rw [hout] at hA hB ⊢
      have hAne : pyRstrip s ≠ A := by
        intro he
        exact ((mem_dedupLoop seen rest).mp hA).2 (he ▸ h)
      have hBne : pyRstrip s ≠ B := by
        intro he
        exact ((mem_dedupLoop seen rest).mp hB).2 (he ▸ h)
      rw [List.map_cons, List.indexOf_cons_ne _ hAne, List.indexOf_cons_ne _ hBne,
        Nat.succ_lt_succ_iff]
      exact ih seen hA hB
    · have hout : dedupLoop seen (s :: rest) =
          pyRstrip s :: dedupLoop (pyRstrip s :: seen) rest := by
        simp only [dedupLoop]; rw [if_neg h]
      rw [hout] at hA hB ⊢
      rw [List.map_cons]
      by_cases hAv : A = pyRstrip s
      · by_cases hBv : B = pyRstrip s
        · rw [hAv, hBv]
          exact iff_of_false (lt_irrefl _) (lt_irrefl _)
        · have hBmem : B ∈ dedupLoop (pyRstrip s :: seen) rest := by
            rcases List.mem_cons.mp hB with hc | hc
            · exact absurd hc hBv
            · exact hc
          have hBne : pyRstrip s ≠ B := fun he => hBv he.symm
          refine iff_of_true ?_ ?_
          · rw [hAv, List.indexOf_cons_self, List.indexOf_cons_ne _ hBne]
            exact Nat.succ_pos _
          · rw [hAv, List.indexOf_cons_self, List.indexOf_cons_ne _ hBne]
            exact Nat.succ_pos _
      · have hAmem : A ∈ dedupLoop (pyRstrip s :: seen) rest := by
          rcases List.mem_cons.mp hA with hc | hc
          · exact absurd hc hAv
          · exact hc
        have hAne : pyRstrip s ≠ A := fun he => hAv he.symm
        by_cases hBv : B = pyRstrip s
        · refine iff_of_false ?_ ?_
          · rw [hBv, List.indexOf_cons_self, List.indexOf_cons_ne _ hAne]
            exact Nat.not_lt_zero _
          · rw [hBv, List.indexOf_cons_self, List.indexOf_cons_ne _ hAne]
            exact Nat.not_lt_zero _
        · have hBmem : B ∈ dedupLoop (pyRstrip s :: seen) rest := by
            rcases List.mem_cons.mp hB with hc | hc
            · exact absurd hc hBv
            · exact hc
          have hBne : pyRstrip s ≠ B := fun he => hBv he.symm
          rw [List.indexOf_cons_ne _ hAne, List.indexOf_cons_ne _ hBne,
            List.indexOf_cons_ne _ hAne, List.indexOf_cons_ne _ hBne,
            Nat.succ_lt_succ_iff, Nat.succ_lt_succ_iff]
          exact ih _ hAmem hBmem

theorem pair_sublist_iff_indexOf {A B : String} (l : List String)
    (hnd : l.Nodup) (hA : A ∈ l) (hB : B ∈ l) (hne : A ≠ B) :
    List.Sublist [A, B] l ↔ List.indexOf A l < List.indexOf B l := by
  induction l with
  | nil => cases hA
  | cons x xs ih =>
    rcases List.mem_cons.mp hA with hAx | hAxs
    · subst hAx
      have hBxs : B ∈ xs := by
        rcases List.mem_cons.mp hB with hc | hc
        · exact absurd hc.symm hne
        · exact hc
      have hBne : A ≠ B := hne
      refine iff_of_true ?_ ?_
      · exact (List.singleton_sublist.mpr hBxs).cons₂ A
      · rw [List.indexOf_cons_self, List.indexOf_cons_ne _ hne]
        exact Nat.succ_pos _
    · have hxA : x ≠ A := by
        intro he
        exact (List.nodup_cons.mp hnd).1 (he ▸ hAxs)
      rcases List.mem_cons.mp hB with hBx | hBxs
      · subst hBx
        refine iff_of_false ?_ ?_
        · intro hsub
          cases hsub with
          | cons _ hs =>
            exact (List.nodup_cons.mp hnd).1
              (hs.subset (List.mem_cons_of_mem _ (List.mem_cons_self _ _)))
          | cons₂ _ hs => exact hne rfl
        · rw [List.indexOf_cons_self, List.indexOf_cons_ne _ hxA]
          exact Nat.not_lt_zero _
      · have hxB : x ≠ B := by
          intro he
          exact (List.nodup_cons.mp hnd).1 (he ▸ hBxs)
        rw [List.indexOf_cons_ne _ hxA, List.indexOf_cons_ne _ hxB,
          Nat.succ_lt_succ_iff, ← ih (List.Nodup.of_cons hnd) hAxs hBxs]
        constructor
        · intro hsub
          cases hsub with
          | cons _ hs => exact hs
          | cons₂ _ hs => exact absurd rfl hxA
        · exact fun hs => hs.cons x

/-- C2: for two distinct trimmed values both present in the merge output, A
precedes B in the output (as a two-element sublist) exactly when the newest
occurrence of A in the combined newest-first scan sits at a later (older)
index than the newest occurrence of B. -/
theorem merge_order_recency (h : List String) (a : Option (List String))
    (A B : String) (hA : A ∈ historyMerge h a) (hB : B ∈ historyMerge h a)
    (hne : A ≠ B) :
    List.Sublist [A, B] (historyMerge h a) ↔
      List.indexOf B ((combinedNewestFirst h a).map pyRstrip) <
        List.indexOf A ((combinedNewestFirst h a).map pyRstrip) := by
  unfold historyMerge at hA hB ⊢
  have hA' : A ∈ dedupLoop [] (combinedNewestFirst h a) := List.mem_reverse.mp hA
  have hB' : B ∈ dedupLoop [] (combinedNewestFirst h a) := List.mem_reverse.mp hB
  have h1 : List.Sublist [A, B] (dedupLoop [] (combinedNewestFirst h a)).reverse ↔
      List.Sublist [B, A] (dedupLoop [] (combinedNewestFirst h a)) := by
    constructor
    · intro hs
      have := hs.reverse
      simpa using this
    · intro hs
      have := hs.reverse
      simpa using this
  rw [h1, pair_sublist_iff_indexOf _ (nodup_dedupLoop _ _) hB' hA' hne.symm,
    dedupLoop_indexOf_lt _ [] hB' hA']

/-- Witness for C2 at the inputs of the append-precedence example. -/
theorem merge_order_recency_witness :
    (List.Sublist ["b", "a"] (historyMerge ["a", "b"] (some ["a", "c"])) ↔
      List.indexOf "a" ((combinedNewestFirst ["a", "b"] (some ["a", "c"])).map pyRstrip) <
        List.indexOf "b" ((combinedNewestFirst ["a", "b"] (some ["a", "c"])).map pyRstrip)) :=
  merge_order_recency ["a", "b"] (some ["a", "c"]) "b" "a"
    (by decide) (by decide) (by decide)

/-- A file on disk, abstracted as the decoded text lines that `readlines`
returns together with the byte count that `os.path.getsize` reports (sizes
of files written by the model are counted in characters, one per byte of
the claims' interest). -/
structure File where
  lines : List String
  size : Nat
deriving DecidableEq

/-- Filesystem state: a map from a path to the file stored there, `none`
when the path does not exist (`os.path.exists` is false). -/
structure FS where
  files : String → Option File

/-- Effect of `save_replace(path, ...)` completing: the destination path now
holds the freshly written file. -/
def FS.setFile (fs : FS) (p : String) (f : File) : FS :=
  ⟨fun q => if q = p then some f else fs.files q⟩

/-- Effect of `os.unlink(path)`: the path no longer exists. -/
def FS.unlink (fs : FS) (p : String) : FS :=
  ⟨fun q => if q = p then none else fs.files q⟩

theorem FS.files_setFile_self (fs : FS) (p : String) (f : File) :
    (fs.setFile p f).files p = some f := by
  simp [FS.setFile]

theorem FS.files_setFile_ne (fs : FS) (p q : String) (f : File)
    (h : q ≠ p) : (fs.setFile p f).files q = fs.files q := by
  simp [FS.setFile, h]

theorem FS.files_unlink_self (fs : FS) (p : String) :
    (fs.unlink p).files p = none := by
  simp [FS.unlink]

theorem FS.files_unlink_ne (fs : FS) (p q : String) (h : q ≠ p) :
    (fs.unlink p).files q = fs.files q := by
  simp [FS.unlink, h]

/-- Python exceptions raised by the modelled code paths. -/
inductive PyError where
  | fileNotFound (path : String)
  | assertionError
  | nameError (n : String)
deriving DecidableEq

/-- Termination of a modelled run: normal return (the process goes on to
exit 0), an explicit `sys.exit(code)`, or an unhandled exception. -/
inductive Status where
  | ok
  | exited (code : Nat)
  | raised (e : PyError)
deriving DecidableEq

/-- Result of a run of `do_the_magic`: the final filesystem, the messages
written to standard output, and how the run terminated. -/
structure RunResult where
  fs : FS
  stdout : List String
  status : Status

/-- Message printed by `do_the_magic` when the history file is missing. -/
def missingHistoryMsg (historyfile : String) : String :=
  "historyfile: " ++ historyfile ++ " does not exist"

/-- Message written to standard output when the backup size guard rejects
(note the source interpolates the unexpanded `backupfile` argument). -/
def backupGuardErrMsg (backupfile : String) : String :=
  "ERROR: history file is smaller than backup; Try appending the backup file (" ++
    backupfile ++ ") to the history file or uniquifying the backup file."

/-- Size of the file `save_replace` writes for the merged list `short`: each
entry followed by one newline. -/
def linesSize (ls : List String) : Nat :=
  (ls.map (fun s => s.length + 1)).sum

/-- The `assert "tmp" in append_filename` substring test. -/
def containsTmp (p : String) : Bool :=
  decide ("tmp".data <:+: p.data)

/-- Tail of `do_the_magic` once the merged list `short` is known: evaluate
the backup guard `os.path.getsize(backup) < os.path.getsize(historyfile) + 80`
(the backup size is read first, so a missing backup raises `FileNotFoundError`
there), write the backup through `save_replace` when the guard passes or
print the diagnostic when it rejects, and finally rewrite the history file
through `save_replace`. -/
def magicFinish (fs : FS) (out : List String)
    (historyfile backup backupfile : String) (short : List String) : RunResult :=
  match fs.files backup with
  | none => ⟨fs, out, .raised (.fileNotFound backup)⟩
  | some bf =>
    match fs.files historyfile with
    | none => ⟨fs, out, .raised (.fileNotFound historyfile)⟩
    | some hf =>
      if bf.size < hf.size + 80 then
        ⟨(fs.setFile backup ⟨short, linesSize short⟩).setFile historyfile
          ⟨short, linesSize short⟩, out, .ok⟩
      else
        ⟨fs.setFile historyfile ⟨short, linesSize short⟩,
          out ++ [backupGuardErrMsg backupfile], .ok⟩

/-- Shallow embedding of `do_the_magic(historyfile, append_filename,
backupfile)`.  `expanduser` stands for `os.path.expanduser`, applied to the
backup path only.  A `none` append path covers both `None` and the falsy
empty string in `if append_filename and os.path.exists(append_filename)`.
The steps in source order: expand the backup path; fail with `sys.exit(1)`
when the history file is missing; read and reverse the history lines and
print their count; when the append file is given and exists, assert its
path contains `"tmp"`, read it, prepend its reversed lines, and delete it;
deduplicate; then run the guarded backup write and the history rewrite. -/
def do_the_magic (expanduser : String → String) (fs : FS)
    (historyfile : String) (append_filename : Option String)
    (backupfile : String) : RunResult :=
  match fs.files historyfile with
  | none => ⟨fs, [missingHistoryMsg historyfile], .exited 1⟩
  | some hist =>
    let out := ["Uniquehist " ++ toString hist.lines.reverse.length]
    match append_filename with
    | some ap =>
      match fs.files ap with
      | some addfile =>
        if containsTmp ap then
          magicFinish (fs.unlink ap) out historyfile (expanduser backupfile)
            backupfile (historyMerge hist.lines (some addfile.lines))
        else ⟨fs, out, .raised .assertionError⟩
      | none =>
        magicFinish fs out historyfile (expanduser backupfile) backupfile
          (historyMerge hist.lines none)
    | none =>
      magicFinish fs out historyfile (expanduser backupfile) backupfile
        (historyMerge hist.lines none)

/-- Append lines that `do_the_magic` consumes from the filesystem: the
lines of the append file when its path is given and the file exists. -/
def magicAppendLines (fs : FS) (append_filename : Option String) :
    Option (List String) :=
  match append_filename with
  | some ap => (fs.files ap).map File.lines
  | none => none

theorem magicFinish_missing_backup (fs : FS) (out : List String)
    (historyfile backup backupfile : String) (short : List String)
    (hb : fs.files backup = none) :
    magicFinish fs out historyfile backup backupfile short =
      ⟨fs, out, .raised (.fileNotFound backup)⟩ := by
  unfold magicFinish
  rw [hb]

theorem magicFinish_reject (fs : FS) (out : List String)
    (historyfile backup backupfile : String) (short : List String)
    (hf bf : File) (hh : fs.files historyfile = some hf)
    (hb : fs.files backup = some bf) (hg : ¬ bf.size < hf.size + 80) :
    magicFinish fs out historyfile backup backupfile short =
      ⟨fs.setFile historyfile ⟨short, linesSize short⟩,
        out ++ [backupGuardErrMsg backupfile], .ok⟩ := by
  unfold magicFinish
  rw [hb, hh]
  simp only [if_neg hg]

theorem magicFinish_pass (fs : FS) (out : List String)
    (historyfile backup backupfile : String) (short : List String)
    (hf bf : File) (hh : fs.files historyfile = some hf)
    (hb : fs.files backup = some bf) (hg : bf.size < hf.size + 80) :
    magicFinish fs out historyfile backup backupfile short =
      ⟨(fs.setFile backup ⟨short, linesSize short⟩).setFile historyfile
        ⟨short, linesSize short⟩, out, .ok⟩ := by
  unfold magicFinish
  rw [hb, hh]
  simp only [if_pos hg]

theorem magicFinish_files_backup (fs : FS) (out : List String)
    (historyfile backup backupfile : String) (short : List String)
    (hf bf : File) (hh : fs.files historyfile = some hf)
    (hb : fs.files backup = some bf) :
    (magicFinish fs out historyfile backup backupfile short).fs.files backup =
      some (if bf.size < hf.size + 80 then ⟨short, linesSize short⟩ else bf) := by
  by_cases hg : bf.size < hf.size + 80
  · rw [magicFinish_pass fs out historyfile backup backupfile short hf bf hh hb hg,
      if_pos hg]
    by_cases he : backup = historyfile
    · subst he
      simp [FS.setFile]
    · rw [FS.files_setFile_ne _ _ _ _ he, FS.files_setFile_self]
  · rw [magicFinish_reject fs out historyfile backup backupfile short hf bf hh hb hg,
      if_neg hg]
    by_cases he : backup = historyfile
    · subst he
      rw [hh] at hb
      have : bf = hf := (Option.some.inj hb).symm
      subst this
      exact absurd (by omega) hg
    · exact (FS.files_setFile_ne _ _ _ _ he).trans hb

/-- C4: once the run reaches the backup guard, the backup is overwritten
with the merged content exactly when the current backup size is smaller
than the pre-merge history size plus 80 (so with backup size 1000 and
history size 950 it is rewritten, with backup size 1040 it keeps its old
file). -/
theorem backup_guard_iff (expanduser : String → String) (fs : FS)
    (historyfile : String) (append_filename : Option String)
    (backupfile : String) (hf bf : File)
    (hh : fs.files historyfile = some hf)
    (hb : fs.files (expanduser backupfile) = some bf)
    (hap : ∀ ap, append_filename = some ap → (fs.files ap).isSome = true →
      containsTmp ap = true ∧ ap ≠ historyfile ∧ ap ≠ expanduser backupfile) :
    (do_the_magic expanduser fs historyfile append_filename backupfile).fs.files
        (expanduser backupfile) =
      some (if bf.size < hf.size + 80
        then ⟨historyMerge hf.lines (magicAppendLines fs append_filename),
          linesSize (historyMerge hf.lines (magicAppendLines fs append_filename))⟩
        else bf) := by
  unfold do_the_magic
  rw [hh]
  match append_filename with
  | none =>
    exact magicFinish_files_backup _ _ _ _ _ _ hf bf hh hb
  | some ap =>
    match hex : fs.files ap with
    | none =>
      simp only [magicAppendLines, hex, Option.map_none]
      exact magicFinish_files_backup _ _ _ _ _ _ hf bf hh hb
    | some addfile =>
      obtain ⟨htmp, hnh, hnb⟩ := hap ap rfl (by rw [hex]; rfl)
      simp only [magicAppendLines, hex, Option.map_some, htmp, if_true]
      exact magicFinish_files_backup _ _ _ _ _ _ hf bf
        ((FS.files_unlink_ne _ _ _ (fun he => hnh he.symm)).trans hh)
        ((FS.files_unlink_ne _ _ _ (fun he => hnb he.symm)).trans hb)

/-- Example filesystem with history size 950 and backup size 1000. -/
def fsGuardPass : FS :=
  ⟨fun p => if p = "h" then some ⟨["x"], 950⟩
    else if p = "b" then some ⟨["old"], 1000⟩ else none⟩

/-- Example filesystem with history size 950 and backup size 1040. -/
def fsGuardFail : FS :=
  ⟨fun p => if p = "h" then some ⟨["x"], 950⟩
    else if p = "b" then some ⟨["old"], 1040⟩ else none⟩

/-- Witness for C4 at the spec's two concrete guard instances: backup size
1000 against history size 950 (guard passes, backup rewritten), and backup
size 1040 (guard fails, backup file kept). -/
theorem backup_guard_iff_witness :
    (do_the_magic id fsGuardPass "h" none "b").fs.files "b" =
        some (if (1000 : Nat) < 950 + 80
          then ⟨historyMerge ["x"] (magicAppendLines fsGuardPass none),
            linesSize (historyMerge ["x"] (magicAppendLines fsGuardPass none))⟩
          else ⟨["old"], 1000⟩) ∧
      (do_the_magic id fsGuardFail "h" none "b").fs.files "b" =
        some (if (1040 : Nat) < 950 + 80
          then ⟨historyMerge ["x"] (magicAppendLines fsGuardFail none),
            linesSize (historyMerge ["x"] (magicAppendLines fsGuardFail none))⟩
          else ⟨["old"], 1040⟩) :=
  ⟨backup_guard_iff id fsGuardPass "h" none "b" ⟨["x"], 950⟩ ⟨["old"], 1000⟩
      rfl rfl (fun _ h => nomatch h),
    backup_guard_iff id fsGuardFail "h" none "b" ⟨["x"], 950⟩ ⟨["old"], 1040⟩
      rfl rfl (fun _ h => nomatch h)⟩

/-- C5: when the backup guard rejects, the run still completes normally:
the diagnostic is written to standard output, the backup file keeps its old
file, the history file is replaced with the merged content, and the status
is a normal return (process exit code zero). -/
theorem backup_reject_nonfatal (expanduser : String → String) (fs : FS)
    (historyfile : String) (append_filename : Option String)
    (backupfile : String) (hf bf : File)
    (hh : fs.files historyfile = some hf)
    (hb : fs.files (expanduser backupfile) = some bf)
    (hap : ∀ ap, append_filename = some ap → (fs.files ap).isSome = true →
      containsTmp ap = true ∧ ap ≠ historyfile ∧ ap ≠ expanduser backupfile)
    (hg : ¬ bf.size < hf.size + 80) :
    (do_the_magic expanduser fs historyfile append_filename backupfile).status
        = .ok ∧
      backupGuardErrMsg backupfile ∈
        (do_the_magic expanduser fs historyfile append_filename backupfile).stdout ∧
      (do_the_magic expanduser fs historyfile append_filename backupfile).fs.files
        (expanduser backupfile) = some bf ∧
      (do_the_magic expanduser fs historyfile append_filename backupfile).fs.files
        historyfile =
        some ⟨historyMerge hf.lines (magicAppendLines fs append_filename),
          linesSize (historyMerge hf.lines (magicAppendLines fs append_filename))⟩ := by
  have hbh : expanduser backupfile ≠ historyfile := by
    intro he
    rw [he, hh] at hb
    have : bf = hf := (Option.some.inj hb).symm
    subst this
    exact hg (by omega)
  have keyFinish : ∀ (fs1 : FS) (out : List String) (short : List String),
      fs1.files historyfile = some hf →
      fs1.files (expanduser backupfile) = some bf →
      (magicFinish fs1 out historyfile (expanduser backupfile) backupfile
          short).status = .ok ∧
        backupGuardErrMsg backupfile ∈
          (magicFinish fs1 out historyfile (expanduser backupfile) backupfile
            short).stdout ∧
        (magicFinish fs1 out historyfile (expanduser backupfile) backupfile
          short).fs.files (expanduser backupfile) = some bf ∧
        (magicFinish fs1 out historyfile (expanduser backupfile) backupfile
          short).fs.files historyfile = some ⟨short, linesSize short⟩ := by
    intro fs1 out short hh1 hb1
    rw [magicFinish_reject fs1 out historyfile (expanduser backupfile)
      backupfile short hf bf hh1 hb1 hg]
    refine ⟨rfl, by simp, ?_, ?_⟩
    · rw [FS.files_setFile_ne _ _ _ _ hbh]
      exact hb1
    · exact FS.files_setFile_self _ _ _
  unfold do_the_magic
  rw [hh]
  match append_filename with
  | none =>
    exact keyFinish fs _ _ hh hb
  | some ap =>
    match hex : fs.files ap with
    | none =>
      simp only [magicAppendLines, hex, Option.map_none]
      exact keyFinish fs _ _ hh hb
    | some addfile =>
      obtain ⟨htmp, hnh, hnb⟩ := hap ap rfl (by rw [hex]; rfl)
      simp only [magicAppendLines, hex, Option.map_some, htmp, if_true]
      exact keyFinish (fs.unlink ap) _ _
        ((FS.files_unlink_ne _ _ _ (fun he => hnh he.symm)).trans hh)
        ((FS.files_unlink_ne _ _ _ (fun he => hnb he.symm)).trans hb)

/-- Witness for C5 on the filesystem whose backup (1040 bytes) is larger
than the history (950 bytes) plus the 80-byte slack. -/
theorem backup_reject_nonfatal_witness :
    (do_the_magic id fsGuardFail "h" none "b").status = .ok ∧
      backupGuardErrMsg "b" ∈ (do_the_magic id fsGuardFail "h" none "b").stdout ∧
      (do_the_magic id fsGuardFail "h" none "b").fs.files "b" =
        some ⟨["old"], 1040⟩ ∧
      (do_the_magic id fsGuardFail "h" none "b").fs.files "h" =
        some ⟨historyMerge ["x"] (magicAppendLines fsGuardFail none),
          linesSize (historyMerge ["x"] (magicAppendLines fsGuardFail none))⟩ :=
  backup_reject_nonfatal id fsGuardFail "h" none "b" ⟨["x"], 950⟩ ⟨["old"], 1040⟩
    rfl rfl (fun _ h => nomatch h) (by decide)

/-- C8: when the backup file does not exist, the run dies on the
`os.path.getsize(backup)` call of the guard with a file-not-found error,
after the append file has already been deleted and before the history or
backup file is written, so the appended entries are lost and the history
file is unchanged. -/
theorem missing_backup_aborts (expanduser : String → String) (fs : FS)
    (historyfile ap backupfile : String) (hist af : File)
    (hh : fs.files historyfile = some hist)
    (hex : fs.files ap = some af)
    (htmp : containsTmp ap = true)
    (hb : fs.files (expanduser backupfile) = none)
    (hne : ap ≠ historyfile) :
    (do_the_magic expanduser fs historyfile (some ap) backupfile).status =
        .raised (.fileNotFound (expanduser backupfile)) ∧
      (do_the_magic expanduser fs historyfile (some ap) backupfile).fs.files
        ap = none ∧
      (do_the_magic expanduser fs historyfile (some ap) backupfile).fs.files
        historyfile = some hist ∧
      (do_the_magic expanduser fs historyfile (some ap) backupfile).fs.files
        (expanduser backupfile) = none := by
  have hba : expanduser backupfile ≠ ap := by
    intro he
    rw [he, hex] at hb
    exact Option.noConfusion hb
  unfold do_the_magic
  simp only [hh, hex, htmp, if_true]
  rw [magicFinish_missing_backup _ _ _ _ _ _
    ((FS.files_unlink_ne _ _ _ hba).trans hb)]
  refine ⟨rfl, FS.files_unlink_self _ _, ?_, ?_⟩
  · exact (FS.files_unlink_ne _ _ _ (fun he => hne he.symm)).trans hh
  · exact (FS.files_unlink_ne _ _ _ hba).trans hb

/-- Example filesystem with a history file and an append file but no backup
file. -/
def fsMissingBackup : FS :=
  ⟨fun p => if p = "h" then some ⟨["a"], 10⟩
    else if p = "tmpadd" then some ⟨["b"], 5⟩ else none⟩

/-- Witness for C8 on a filesystem whose backup path `"b"` is absent. -/
theorem missing_backup_aborts_witness :
    (do_the_magic id fsMissingBackup "h" (some "tmpadd") "b").status =
        .raised (.fileNotFound "b") ∧
      (do_the_magic id fsMissingBackup "h" (some "tmpadd") "b").fs.files
        "tmpadd" = none ∧
      (do_the_magic id fsMissingBackup "h" (some "tmpadd") "b").fs.files
        "h" = some ⟨["a"], 10⟩ ∧
      (do_the_magic id fsMissingBackup "h" (some "tmpadd") "b").fs.files
        "b" = none :=
  missing_backup_aborts id fsMissingBackup "h" "tmpadd" "b" ⟨["a"], 10⟩
    ⟨["b"], 5⟩ rfl rfl (by decide) rfl (by decide)

/-- C9: when the append file is given and exists but its path does not
contain the substring `"tmp"`, the `assert` fails: the run aborts with an
assertion error before the append file is consumed and before any file is
written, leaving the whole filesystem unchanged. -/
theorem append_assert_aborts (expanduser : String → String) (fs : FS)
    (historyfile ap backupfile : String) (hist af : File)
    (hh : fs.files historyfile = some hist)
    (hex : fs.files ap = some af)
    (htmp : containsTmp ap = false) :
    do_the_magic expanduser fs historyfile (some ap) backupfile =
      ⟨fs, ["Uniquehist " ++ toString hist.lines.reverse.length],
        .raised .assertionError⟩ := by
  unfold do_the_magic
  simp only [hh, hex, htmp, Bool.false_eq_true, if_false]

/-- Example filesystem whose append file lives at a path without `"tmp"`. -/
def fsBadAppend : FS :=
  ⟨fun p => if p = "h" then some ⟨["a"], 10⟩
    else if p = "addfile" then some ⟨["b"], 5⟩
    else if p = "b" then some ⟨["c"], 3⟩ else none⟩

/-- Witness for C9 at the append path `"addfile"`. -/
theorem append_assert_aborts_witness :
    do_the_magic id fsBadAppend "h" (some "addfile") "b" =
      ⟨fsBadAppend, ["Uniquehist " ++ toString (["a"] : List String).reverse.length],
        .raised .assertionError⟩ :=
  append_assert_aborts id fsBadAppend "h" "addfile" "b" ⟨["a"], 10⟩ ⟨["b"], 5⟩
    rfl rfl (by decide)

/-- Destination-file contents observable while `save_replace` publishes new
content.  The helper writes the full new content to a named temporary file,
flushes it, and then runs `shutil.copy(file_like.name, filename)`; that
library call opens the destination for writing (truncating it to empty) and
then streams the source into it in buffer-sized chunks.  The observable
destination states are therefore: the old content, the empty file right
after truncation, the content after each chunk write (a prefix of the new
content), and finally the full new content.  `chunk` is the copy buffer
size; with `chunk ≥ 1` the last listed state is the complete new
content. -/
def saveReplaceDestStates (old newContent : String) (chunk : Nat) :
    List String :=
  old :: (List.range (newContent.length + 1)).map
    (fun i => ⟨newContent.data.take (i * chunk)⟩)

/-- C3: the claim asserts that every observable destination state during a
`save_replace` is the complete old content or the complete new content.
The code instead streams through `shutil.copy`, so the truncated (empty)
destination is observable: replacing old content `"a\n"` with new content
`"bb\n"` (copy buffer 1) passes through the empty state, which is neither
the old nor the new content. -/
theorem save_replace_not_atomic :
    "" ∈ saveReplaceDestStates "a\n" "bb\n" 1 ∧
      ¬("" = "a\n" ∨ "" = "bb\n") := by
  constructor
  · decide
  · decide

/-- Names bound at module scope in `src/uniquehist/__init__.py`: the
imports and the five top-level functions. -/
def moduleGlobals : List String :=
  ["os", "sys", "fcntl", "contextlib", "tempfile", "shutil", "itertools",
   "open", "codecs", "argparse", "interprocess_lock", "save_replace",
   "do_the_magic", "install", "main"]

/-- Local names bound in the non-install branch of `main` before the
`do_the_magic` call: the parser, the parsed arguments, and the four
configuration values. -/
def mainLocals : List String :=
  ["parser", "args", "historyfile", "append_filename", "backup_file",
   "lock_file"]

/-- Python name resolution inside `main`: a name is defined iff it is one
of `main`'s locals or a module global (no builtin is called `backupfile`,
so builtins are irrelevant to the name this model looks up). -/
def mainResolves (n : String) : Bool :=
  mainLocals.contains n || moduleGlobals.contains n

/-- Result of the non-install branch of `main`: whether the advisory lock
was acquired and released, whether `do_the_magic` ran, the final
filesystem, and the termination status. -/
structure MainRun where
  fs : FS
  lockAcquired : Bool
  lockReleased : Bool
  magicRan : Bool
  status : Status

/-- Shallow embedding of the non-install branch of `main`.  Inside
`with interprocess_lock(lock_file):` the lock is acquired, then the single
statement `do_the_magic(historyfile=..., append_filename=...,
backupfile=backupfile)` evaluates its keyword arguments; evaluating the
name `backupfile` consults `main`'s locals, then the module globals, then
the builtins, and raises `NameError` when the name is undefined (the
defined local is `backup_file`).  The `interprocess_lock` context manager
releases the lock in its `finally` block on both the normal and the error
path, and the exception propagates. -/
def mainNonInstall (expanduser : String → String) (fs : FS)
    (history_file : String) (append_file : Option String)
    (backup_file : String) : MainRun :=
  if mainResolves "backupfile" then
    let r := do_the_magic expanduser fs history_file append_file backup_file
    ⟨r.fs, true, true, true, r.status⟩
  else
    ⟨fs, true, true, false, .raised (.nameError "backupfile")⟩

/-- C10: every non-install invocation of the entry point raises `NameError`
for the undefined name `backupfile` after acquiring the inter-process lock
and before `do_the_magic` runs, so no file is read or mutated through this
path and the lock is released on the error path. -/
theorem main_noninstall_name_error (expanduser : String → String) (fs : FS)
    (history_file : String) (append_file : Option String)
    (backup_file : String) :
    mainNonInstall expanduser fs history_file append_file backup_file =
      ⟨fs, true, true, false, .raised (.nameError "backupfile")⟩ := by
  unfold mainNonInstall
  rfl

end Uniquehist
